import Mathlib

/-!
Verification of the case-safe jar extraction routine of Luxxit-BuildTools
(`extract_jar_case_safe` and its inner helper `fix_case_conflict` in
`src/main.py`, lines 128-170).

The embedding is a faithful functional model of the Python code:

* entry paths are lists of characters (`List Char`), split on `'/'` with the
  exact semantics of Python's `str.split('/')`;
* the ledger `dir_contents` (a `dict` from parent-directory path to a `set`
  of sibling names) is an association list keyed by the list of path
  segments under the output directory; `set` membership is all the Python
  code observes, so the sets are lists with membership-tested insertion;
* the filesystem under the output directory is a pair of a directory set
  and a file map (path to byte list); `os.makedirs(..., exist_ok=True)`
  creates every missing ancestor and fails on a path already occupied by a
  file; `open(target, 'wb')` truncates the target before the archive bytes
  are read, exactly as in the Python `with` block;
* environment-dependent I/O failures are modelled by oracles: `openOk` for
  opening the archive, `fsOk : Path → Bool` for creating a directory or
  opening a file for writing, and `Entry.content = none` for a file entry
  whose bytes cannot be read (`src.read()` raising);
* `Char.toLower` models Python's single-character `str.lower()` (the
  archives at issue hold ASCII names).
-/

namespace Luxxit

abbrev Name := List Char
abbrev Path := List Name

/-- One archive entry: its `'/'`-delimited path as stored in the zip
directory, and, for file entries, its byte payload (`none` models an entry
whose bytes cannot be read). -/
structure Entry where
  filename : List Char
  content : Option (List Nat)
deriving DecidableEq

/-- `zipfile.ZipInfo.is_dir`: the stored name ends with `'/'`. -/
def Entry.isDirEntry (e : Entry) : Bool :=
  e.filename.getLast? = some '/'

/-- Python's `s.split('/')`: `"" ↦ [""]`, `"a/b" ↦ ["a", "b"]`,
`"/" ↦ ["", ""]`. -/
def splitSlash : List Char → List (List Char)
  | [] => [[]]
  | c :: cs =>
    if c = '/' then [] :: splitSlash cs
    else
      match splitSlash cs with
      | [] => [[c]]
      | p :: ps => (c :: p) :: ps

/-- The collision test inside `fix_case_conflict`:
`exist_name[1:] == name[1:] and exist_name[0].lower() == name[0].lower()
and exist_name[0] != name[0]`.  Names reaching it are never empty (empty
segments are skipped before the ledger is touched), so the catch-all
branch is unreachable in runs of the extractor. -/
def caseConflict (m n : Name) : Bool :=
  match m, n with
  | a :: as, b :: bs => decide (as = bs) && decide (a.toLower = b.toLower) && decide (a ≠ b)
  | _, _ => false

/-- `fix_case_conflict(existing, name)` from `src/main.py` lines 132-141:
if any recorded sibling differs from `name` exactly in the case of the
first character, return `name[0] + "_" + name[1:]`, else return `name`
unchanged.  The Python loop returns the same rewritten string whichever
conflicting member it hits first, so only existence of a conflict
matters. -/
def fix_case_conflict (existing : List Name) (name : Name) : Name :=
  if existing.any (fun m => caseConflict m name) then
    match name with
    | b :: bs => b :: '_' :: bs
    | [] => []
  else name

/-- Lookup in the `dir_contents` ledger; a parent that was never visited
maps to the empty set (`dir_contents[parent] = set()`). -/
def ledgerGet : List (Path × List Name) → Path → List Name
  | [], _ => []
  | (q, s) :: rest, p => if q = p then s else ledgerGet rest p

/-- Update of one key of the `dir_contents` ledger. -/
def ledgerSet : List (Path × List Name) → Path → List Name → List (Path × List Name)
  | [], p, s => [(p, s)]
  | (q, t) :: rest, p, s =>
    if q = p then (p, s) :: rest else (q, t) :: ledgerSet rest p s

/-- `set.add`: insertion into a sibling-name set. -/
def insertName (s : List Name) (n : Name) : List Name :=
  if n ∈ s then s else s ++ [n]

/-- The per-entry segment walk of `extract_jar_case_safe` (lines 152-162):
starting from the output directory, skip empty segments, resolve each
remaining segment against the ledger set of the parent built so far, record
the resolved name, and descend into it.  Returns the updated ledger and the
resolved target path. -/
def resolveSegs : List (Path × List Name) → Path → List (List Char) →
    List (Path × List Name) × Path
  | led, cur, [] => (led, cur)
  | led, cur, part :: rest =>
    if part = [] then resolveSegs led cur rest
    else
      let existing := ledgerGet led cur
      let fixed := fix_case_conflict existing part
      resolveSegs (ledgerSet led cur (insertName existing fixed)) (cur ++ [fixed]) rest

/-- The failure kinds of the extractor.  `archiveOpenFailed` and
`archiveReadFailed` together are the spec's `ArchiveReadError`
(`zipfile.BadZipFile` and read errors); `filesystemFailed` is the spec's
`FilesystemError` (`OSError` from `os.makedirs` or `open`). -/
inductive ExtractErr where
  | archiveOpenFailed : ExtractErr
  | archiveReadFailed : List Char → ExtractErr
  | filesystemFailed : Path → ExtractErr
deriving DecidableEq

/-- The observable state of one extraction run: the in-memory ledger and
the filesystem tree under the output directory (the output directory
itself is the root `[]` and always exists). -/
structure ExtractState where
  ledger : List (Path × List Name)
  dirs : List Path
  files : List (Path × List Nat)
deriving DecidableEq

def initState : ExtractState := ⟨[], [], []⟩

/-- File-map lookup. -/
def filesGet : List (Path × List Nat) → Path → Option (List Nat)
  | [], _ => none
  | (q, v) :: rest, p => if q = p then some v else filesGet rest p

/-- File-map update (overwrite semantics of `open(target, 'wb')`). -/
def filesSet : List (Path × List Nat) → Path → List Nat → List (Path × List Nat)
  | [], p, v => [(p, v)]
  | (q, w) :: rest, p, v =>
    if q = p then (p, v) :: rest else (q, w) :: filesSet rest p v

/-- The nonempty ancestors of a path, shortest first: the directories
`os.makedirs` creates on the way to `p`. -/
def ancestors (p : Path) : List Path :=
  (List.range p.length).map (fun i => p.take (i + 1))

/-- One `os.makedirs` walk: each missing ancestor is created (subject to
the filesystem oracle); an ancestor already occupied by a file raises
`OSError`; an existing directory is fine (`exist_ok=True`). -/
def mkdirsGo (fsOk : Path → Bool) : ExtractState → List Path →
    ExtractState × Option ExtractErr
  | st, [] => (st, none)
  | st, q :: rest =>
    if (filesGet st.files q).isSome then (st, some (.filesystemFailed q))
    else if q ∈ st.dirs then mkdirsGo fsOk st rest
    else if fsOk q then mkdirsGo fsOk { st with dirs := st.dirs ++ [q] } rest
    else (st, some (.filesystemFailed q))

/-- `os.makedirs(p, exist_ok=True)` relative to the output directory; the
root `[]` always exists. -/
def mkdirs (fsOk : Path → Bool) (st : ExtractState) (p : Path) :
    ExtractState × Option ExtractErr :=
  mkdirsGo fsOk st (ancestors p)

/-- Lines 169-170: `with jar.open(file_info) as src, open(target_path,'wb')
as dst: dst.write(src.read())`.  Opening the destination fails on a path
occupied by a directory (or the root) and truncates the target to empty
bytes before `src.read()` runs; a read failure therefore leaves the target
truncated. -/
def writeEntryFile (fsOk : Path → Bool) (st : ExtractState) (tgt : Path) (e : Entry) :
    ExtractState × Option ExtractErr :=
  if tgt = [] ∨ tgt ∈ st.dirs then (st, some (.filesystemFailed tgt))
  else if fsOk tgt then
    let st1 := { st with files := filesSet st.files tgt [] }
    match e.content with
    | none => (st1, some (.archiveReadFailed e.filename))
    | some bs => ({ st1 with files := filesSet st1.files tgt bs }, none)
  else (st, some (.filesystemFailed tgt))

/-- Processing of one archive entry (lines 147-170): split the stored
name, skip the degenerate empty name, resolve the segments against the
ledger, then create the directory or write the file. -/
def processEntry (fsOk : Path → Bool) (st : ExtractState) (e : Entry) :
    ExtractState × Option ExtractErr :=
  let parts := splitSlash e.filename
  if parts = [[]] then (st, none)
  else
    let r := resolveSegs st.ledger [] parts
    let st1 := { st with ledger := r.1 }
    if e.isDirEntry then mkdirs fsOk st1 r.2
    else
      match mkdirs fsOk st1 r.2.dropLast with
      | (st2, some err) => (st2, some err)
      | (st2, none) => writeEntryFile fsOk st2 r.2 e

/-- The entry loop: entries are processed in archive order; the first
failure stops the run and the state reached so far is kept (no
rollback). -/
def extractGo (fsOk : Path → Bool) : ExtractState → List Entry →
    ExtractState × Option ExtractErr
  | st, [] => (st, none)
  | st, e :: rest =>
    match processEntry fsOk st e with
    | (st1, none) => extractGo fsOk st1 rest
    | (st1, some err) => (st1, some err)

/-- `extract_jar_case_safe(jar_path, output_dir)`: open the archive
(`openOk` models whether `zipfile.ZipFile` succeeds), then run the entry
loop from the empty ledger. -/
def extract_jar_case_safe (openOk : Bool) (fsOk : Path → Bool) (entries : List Entry) :
    ExtractState × Option ExtractErr :=
  if openOk then extractGo fsOk initState entries
  else (initState, some .archiveOpenFailed)

/-- The resolved output path an entry would be materialized at, given the
state reached just before it is processed. -/
def entryTarget (st : ExtractState) (e : Entry) : Path :=
  (resolveSegs st.ledger [] (splitSlash e.filename)).2

/-- Case-insensitive equality of two sibling names. -/
def lowerEq (a b : Name) : Bool :=
  decide (a.map Char.toLower = b.map Char.toLower)

/-- Whether a resolved path climbs above the output directory once `..`
segments are interpreted by the operating system (`.` stays in place,
`..` pops one level; escape is a negative depth). -/
def escapeDepth : Int → List Name → Bool
  | _, [] => false
  | d, s :: rest =>
    if s = ['.', '.'] then (if d - 1 < 0 then true else escapeDepth (d - 1) rest)
    else if s = ['.'] then escapeDepth d rest
    else escapeDepth (d + 1) rest

def isEscaping (p : Path) : Bool := escapeDepth 0 p

example : splitSlash "pkg/Main.txt".data = ["pkg".data, "Main.txt".data] := by decide
example : splitSlash "/".data = [[], []] := by decide
example : splitSlash [] = [[]] := by decide
example : fix_case_conflict ["File".data] "file".data = "f_ile".data := by decide
example : fix_case_conflict ["file".data] "file".data = "file".data := by decide

/-! ## Basic lemmas about the ledger, the file map and the conflict test -/

theorem ledgerGet_ledgerSet (led : List (Path × List Name)) (p q : Path) (s : List Name) :
    ledgerGet (ledgerSet led p s) q = if q = p then s else ledgerGet led q := by
  induction led with
  | nil =>
    by_cases hq : q = p
    · simp [ledgerSet, ledgerGet, hq]
    · simp [ledgerSet, ledgerGet, hq, Ne.symm hq]
  | cons hd tl ih =>
    obtain ⟨k, t⟩ := hd
    by_cases hk : k = p
    · subst hk
      by_cases hq : q = k
      · simp [ledgerSet, ledgerGet, hq]
      · simp [ledgerSet, ledgerGet, hq, Ne.symm hq]
    · by_cases hq : q = k
      · subst hq
        simp [ledgerSet, ledgerGet, hk, Ne.symm hk]
      · simp [ledgerSet, ledgerGet, hk, hq, Ne.symm hq, ih]

theorem filesGet_filesSet (fs : List (Path × List Nat)) (p q : Path) (v : List Nat) :
    filesGet (filesSet fs p v) q = if q = p then some v else filesGet fs q := by
  induction fs with
  | nil =>
    by_cases hq : q = p
    · simp [filesSet, filesGet, hq]
    · simp [filesSet, filesGet, hq, Ne.symm hq]
  | cons hd tl ih =>
    obtain ⟨k, w⟩ := hd
    by_cases hk : k = p
    · subst hk
      by_cases hq : q = k
      · simp [filesSet, filesGet, hq]
      · simp [filesSet, filesGet, hq, Ne.symm hq]
    · by_cases hq : q = k
      · subst hq
        simp [filesSet, filesGet, hk, Ne.symm hk]
      · simp [filesSet, filesGet, hk, hq, Ne.symm hq, ih]

theorem mem_insertName (s : List Name) (n m : Name) :
    m ∈ insertName s n ↔ m ∈ s ∨ m = n := by
  unfold insertName
  by_cases h : n ∈ s
  · simp only [if_pos h]
    constructor
    · exact Or.inl
    · rintro (hm | rfl)
      · exact hm
      · exact h
  · simp [if_neg h]

theorem caseConflict_symm (a b : Name) : caseConflict a b = caseConflict b a := by
  cases a with
  | nil => cases b <;> rfl
  | cons x xs =>
    cases b with
    | nil => rfl
    | cons y ys =>
      have h1 : decide (xs = ys) = decide (ys = xs) := decide_eq_decide.2 eq_comm
      have h2 : decide (x.toLower = y.toLower) = decide (y.toLower = x.toLower) :=
        decide_eq_decide.2 eq_comm
      have h3 : decide (x ≠ y) = decide (y ≠ x) := decide_eq_decide.2 ne_comm
      simp only [caseConflict]
      rw [h1, h2, h3]

theorem caseConflict_self (n : Name) : caseConflict n n = false := by
  cases n with
  | nil => rfl
  | cons x xs => simp [caseConflict]

theorem fix_case_conflict_of_no_conflict (existing : List Name) (name : Name)
    (h : ∀ m ∈ existing, caseConflict m name = false) :
    fix_case_conflict existing name = name := by
  unfold fix_case_conflict
  have hany : existing.any (fun m => caseConflict m name) = false := by
    simp only [List.any_eq_false, Bool.not_eq_true]
    exact h
  simp [hany]

theorem fix_case_conflict_of_conflict (existing : List Name) (b : Char) (bs : List Char)
    (m : Name) (hm : m ∈ existing) (hc : caseConflict m (b :: bs) = true) :
    fix_case_conflict existing (b :: bs) = b :: '_' :: bs := by
  unfold fix_case_conflict
  have : existing.any (fun m => caseConflict m (b :: bs)) = true := by
    simp only [List.any_eq_true]
    exact ⟨m, hm, hc⟩
  simp [this]

theorem fix_case_conflict_shape (existing : List Name) (b : Char) (bs : List Char) :
    fix_case_conflict existing (b :: bs) = b :: bs ∨
      fix_case_conflict existing (b :: bs) = b :: '_' :: bs := by
  unfold fix_case_conflict
  by_cases h : existing.any (fun m => caseConflict m (b :: bs)) = true
  · simp [h]
  · simp [Bool.of_not_eq_true h]

/-! ## Lemmas about `splitSlash` and degenerate paths -/

theorem splitSlash_ne_nil (l : List Char) : splitSlash l ≠ [] := by
  induction l with
  | nil => simp [splitSlash]
  | cons c cs ih =>
    unfold splitSlash
    by_cases h : c = '/'
    · simp [h]
    · simp only [if_neg h]
      cases hs : splitSlash cs with
      | nil => simp
      | cons p ps => simp

theorem splitSlash_all_slash (l : List Char) (h : ∀ c ∈ l, c = '/') :
    ∀ p ∈ splitSlash l, p = [] := by
  induction l with
  | nil =>
    intro p hp
    simp [splitSlash] at hp
    exact hp
  | cons c cs ih =>
    have hc : c = '/' := h c (by simp)
    intro p hp
    rw [splitSlash, if_pos hc] at hp
    rcases List.mem_cons.1 hp with rfl | hp'
    · rfl
    · exact ih (fun d hd => h d (List.mem_cons_of_mem c hd)) p hp'

theorem resolveSegs_all_empty (parts : List (List Char)) :
    ∀ led cur, (∀ p ∈ parts, p = []) → resolveSegs led cur parts = (led, cur) := by
  induction parts with
  | nil => intro led cur _; rfl
  | cons p ps ih =>
    intro led cur h
    have hp : p = [] := h p (by simp)
    rw [resolveSegs, if_pos hp]
    exact ih led cur (fun q hq => h q (List.mem_cons_of_mem p hq))

theorem getLast?_all_slash (l : List Char) (hne : l ≠ []) (h : ∀ c ∈ l, c = '/') :
    l.getLast? = some '/' := by
  induction l with
  | nil => exact absurd rfl hne
  | cons c cs ih =>
    cases cs with
    | nil => simp [h c (by simp)]
    | cons d ds =>
      rw [List.getLast?_cons_cons]
      exact ih (by simp) (fun x hx => h x (List.mem_cons_of_mem c hx))

/-! ## Claim theorems on concrete archives -/

/-- The filesystem oracle of a run in which every directory creation and
file open succeeds (the environment raises no `OSError`). -/
def fsAll : Path → Bool := fun _ => true

/-- Claim C2: extracting the archive `["pkg/", "pkg/Main.txt" ↦ A,
"pkg/main.txt" ↦ B]` into an empty output directory succeeds and produces
exactly the directory `pkg` holding the file `Main.txt` with payload `A`
(byte 65) and the file `m_ain.txt` with payload `B` (byte 66). -/
theorem c2_scenario_pkg :
    extract_jar_case_safe true fsAll
        [⟨"pkg/".data, some []⟩, ⟨"pkg/Main.txt".data, some [65]⟩,
         ⟨"pkg/main.txt".data, some [66]⟩]
      = (⟨[([], ["pkg".data]), (["pkg".data], ["Main.txt".data, "m_ain.txt".data])],
          [["pkg".data]],
          [(["pkg".data, "Main.txt".data], [65]), (["pkg".data, "m_ain.txt".data], [66])]⟩,
         none) := by decide

/-- Claim C5: the extractor does not confine its output to the output
directory: the entry `"../evil.txt"` is materialized at `../evil.txt`
relative to the output directory, a path that escapes it (the code never
sanitizes `..` segments), so the claimed containment property fails on the
code. -/
theorem c5_zip_slip :
    extract_jar_case_safe true fsAll [⟨"../evil.txt".data, some [7]⟩]
      = (⟨[([], ["..".data]), (["..".data], ["evil.txt".data])],
          [["..".data]],
          [(["..".data, "evil.txt".data], [7])]⟩, none)
    ∧ isEscaping ["..".data, "evil.txt".data] = true
    ∧ isEscaping ["..".data] = true := by
  exact ⟨by decide, by decide, by decide⟩

/-- Claim C1, counterexample: in the archive
`["file", "File", "f_ile", "F_ile"]` the sibling names `"f_ile"` and
`"F_ile"` collide exactly in first-character case, yet the one enumerated
first (`"f_ile"`) is rewritten to `f__ile` (it collides with `F_ile`, the
rewritten form of the earlier entry `"File"`), while the later `"F_ile"`
keeps its name — the first-enumerated name of a colliding pair is not
always kept. -/
theorem c1_first_writer_counterexample :
    caseConflict "F_ile".data "f_ile".data = true
    ∧ entryTarget (extractGo fsAll initState
          [⟨"file".data, some [1]⟩, ⟨"File".data, some [2]⟩]).1 ⟨"f_ile".data, some [3]⟩
        = ["f__ile".data]
    ∧ entryTarget (extractGo fsAll initState
          [⟨"file".data, some [1]⟩, ⟨"File".data, some [2]⟩, ⟨"f_ile".data, some [3]⟩]).1
        ⟨"F_ile".data, some [4]⟩ = ["F_ile".data]
    ∧ (extract_jar_case_safe true fsAll
          [⟨"file".data, some [1]⟩, ⟨"File".data, some [2]⟩, ⟨"f_ile".data, some [3]⟩,
           ⟨"F_ile".data, some [4]⟩]).1.files
        = [(["file".data], [1]), (["F_ile".data], [4]), (["f__ile".data], [3])] := by decide

/-- Claim C3, counterexample: in the archive
`["File", "F_ile", "file", "f_ile", "F_ile"]` the entries `"f_ile"` and
`"F_ile"` (which differ only in first-character case) are materialized as
`f__ile` and `F__ile`: two final sibling names equal under
case-insensitive comparison although their originals differed only in
first-character case, refuting the claimed no-collision consequence. -/
theorem c3_collision_counterexample :
    caseConflict "F_ile".data "f_ile".data = true
    ∧ entryTarget (extractGo fsAll initState
          [⟨"File".data, some [1]⟩, ⟨"F_ile".data, some [2]⟩, ⟨"file".data, some [3]⟩]).1
        ⟨"f_ile".data, some [4]⟩ = ["f__ile".data]
    ∧ entryTarget (extractGo fsAll initState
          [⟨"File".data, some [1]⟩, ⟨"F_ile".data, some [2]⟩, ⟨"file".data, some [3]⟩,
           ⟨"f_ile".data, some [4]⟩]).1 ⟨"F_ile".data, some [5]⟩ = ["F__ile".data]
    ∧ lowerEq "f__ile".data "F__ile".data = true
    ∧ "f__ile".data ≠ "F__ile".data
    ∧ filesGet (extract_jar_case_safe true fsAll
          [⟨"File".data, some [1]⟩, ⟨"F_ile".data, some [2]⟩, ⟨"file".data, some [3]⟩,
           ⟨"f_ile".data, some [4]⟩, ⟨"F_ile".data, some [5]⟩]).1.files ["f__ile".data]
        = some [4]
    ∧ filesGet (extract_jar_case_safe true fsAll
          [⟨"File".data, some [1]⟩, ⟨"F_ile".data, some [2]⟩, ⟨"file".data, some [3]⟩,
           ⟨"f_ile".data, some [4]⟩, ⟨"F_ile".data, some [5]⟩]).1.files ["F__ile".data]
        = some [5] := by decide

/-- Claim C4, counterexample: in the archive `["a" ↦ [65], "a" ↦ [66]]`
both file entries resolve to the path `a`; after extraction no file under
the output directory has the first entry's payload `[65]` (the second
entry overwrote it), so "exactly one file whose byte content equals that
entry's payload" fails. -/
theorem c4_completeness_counterexample :
    extract_jar_case_safe true fsAll [⟨"a".data, some [65]⟩, ⟨"a".data, some [66]⟩]
      = (⟨[([], ["a".data])], [], [(["a".data], [66])]⟩, none)
    ∧ ((extract_jar_case_safe true fsAll
          [⟨"a".data, some [65]⟩, ⟨"a".data, some [66]⟩]).1.files.all
        (fun q => decide (q.2 ≠ [65]))) = true
    ∧ entryTarget initState ⟨"a".data, some [65]⟩ = ["a".data]
    ∧ filesGet (extract_jar_case_safe true fsAll
          [⟨"a".data, some [65]⟩, ⟨"a".data, some [66]⟩]).1.files ["a".data]
        = some [66] := by decide

/-- Claim C6, counterexample: in the archive `["a" ↦ [65], "a" ↦ bytes
unreadable]` the first entry writes `a ↦ [65]`; the second entry's
destination is opened (truncating `a`) before its bytes are read, so when
the read fails the run stops with the read error but the previously
written file `a` is left truncated to zero bytes — it does not "remain on
disk unchanged". -/
theorem c6_no_rollback_counterexample :
    extract_jar_case_safe true fsAll [⟨"a".data, some [65]⟩, ⟨"a".data, none⟩]
      = (⟨[([], ["a".data])], [], [(["a".data], [])]⟩,
         some (.archiveReadFailed "a".data))
    ∧ (extractGo fsAll initState [⟨"a".data, some [65]⟩]).1.files = [(["a".data], [65])]
    ∧ ([] : List Nat) ≠ [65] := by decide

/-- Claim C10, counterexample: after the archive `["File", "F_ile",
"file"]` the ledger for the output directory records `f_ile` (the
rewritten form of `"file"`); a next segment named `f_ile` — byte-identical
to that recorded sibling — is nevertheless rewritten to `f__ile`, because
it also collides with the recorded sibling `F_ile`; so a byte-identical
recorded sibling does not guarantee the segment is left unrewritten. -/
theorem c10_identical_sibling_counterexample :
    "f_ile".data ∈ ledgerGet
        (extractGo fsAll initState
          [⟨"File".data, some [1]⟩, ⟨"F_ile".data, some [2]⟩,
           ⟨"file".data, some [3]⟩]).1.ledger []
    ∧ entryTarget (extractGo fsAll initState
          [⟨"File".data, some [1]⟩, ⟨"F_ile".data, some [2]⟩,
           ⟨"file".data, some [3]⟩]).1 ⟨"f_ile".data, some [4]⟩ = ["f__ile".data]
    ∧ (["f__ile".data] : Path) ≠ ["f_ile".data]
    ∧ (extract_jar_case_safe true fsAll
          [⟨"File".data, some [1]⟩, ⟨"F_ile".data, some [2]⟩, ⟨"file".data, some [3]⟩,
           ⟨"f_ile".data, some [4]⟩]).1.files
        = [(["File".data], [1]), (["F_ile".data], [2]), (["f_ile".data], [3]),
           (["f__ile".data], [4])] := by decide

/-- Claim C7: an entry whose stored name is empty or consists only of `'/'`
separators is skipped: processing it neither fails nor changes the ledger,
the directories or the files, and the entry loop continues with the
remaining entries. -/
theorem c7_degenerate_skipped (fsOk : Path → Bool) (st : ExtractState) (e : Entry)
    (h : e.filename = [] ∨ (e.filename ≠ [] ∧ ∀ c ∈ e.filename, c = '/')) :
    processEntry fsOk st e = (st, none)
    ∧ ∀ rest, extractGo fsOk st (e :: rest) = extractGo fsOk st rest := by
  have hmain : processEntry fsOk st e = (st, none) := by
    rcases h with h0 | ⟨hne, hall⟩
    · unfold processEntry
      rw [h0]
      simp [splitSlash]
    · have hres : resolveSegs st.ledger [] (splitSlash e.filename) = (st.ledger, []) :=
        resolveSegs_all_empty _ _ _ (splitSlash_all_slash _ hall)
      have hdir : e.isDirEntry = true := by
        unfold Entry.isDirEntry
        rw [getLast?_all_slash e.filename hne hall]
        simp
      have hne2 : splitSlash e.filename ≠ [[]] := by
        cases hf : e.filename with
        | nil => exact absurd hf hne
        | cons c cs =>
          have hc : c = '/' := hall c (hf ▸ List.mem_cons_self c cs)
          rw [splitSlash, if_pos hc]
          intro hcontra
          exact splitSlash_ne_nil cs (List.cons_eq_cons.1 hcontra).2
      unfold processEntry
      rw [if_neg hne2, hres, hdir]
      simp [mkdirs, ancestors, mkdirsGo]
  refine ⟨hmain, fun rest => ?_⟩
  rw [extractGo, hmain]

/-- Claim C7, witness: the only-separators entry `"/"` is skipped without
error from the initial state. -/
theorem c7_degenerate_skipped_witness :
    processEntry fsAll initState ⟨"/".data, some []⟩ = (initState, none) :=
  (c7_degenerate_skipped fsAll initState ⟨"/".data, some []⟩
    (Or.inr ⟨by decide, by decide⟩)).1

/-- Claim C8: extraction is deterministic.  It is a pure function of the
archive (the only internal choice, which member of the Python `set` the
conflict loop inspects first, is irrelevant: `fix_case_conflict` depends
only on the membership of the sibling set), and the `["A/", "A/x.txt"]`
archive produces exactly one directory `A` holding one file `x.txt`, the
directory creation being idempotent across the two entries. -/
theorem c8_deterministic :
    extract_jar_case_safe true fsAll [⟨"A/".data, some []⟩, ⟨"A/x.txt".data, some [7]⟩]
      = (⟨[([], ["A".data]), (["A".data], ["x.txt".data])], [["A".data]],
          [(["A".data, "x.txt".data], [7])]⟩, none)
    ∧ ∀ (e1 e2 : List Name) (n : Name), (∀ m, m ∈ e1 ↔ m ∈ e2) →
        fix_case_conflict e1 n = fix_case_conflict e2 n := by
  constructor
  · decide
  · intro e1 e2 n h
    unfold fix_case_conflict
    have hany : e1.any (fun m => caseConflict m n) = e2.any (fun m => caseConflict m n) := by
      cases h1 : e1.any (fun m => caseConflict m n) with
      | true =>
        obtain ⟨m, hm, hc⟩ := List.any_eq_true.1 h1
        exact (List.any_eq_true.2 ⟨m, (h m).1 hm, hc⟩).symm
      | false =>
        cases h2 : e2.any (fun m => caseConflict m n) with
        | false => rfl
        | true =>
          obtain ⟨m, hm, hc⟩ := List.any_eq_true.1 h2
          have hfalse := List.any_eq_false.1 h1 m ((h m).2 hm)
          simp [hc] at hfalse
    rw [hany]

/-- Claim C8, witness: the sibling sets `["file"]` and `["file"]` have the
same members, so the conflict resolution of `"File"` agrees on them. -/
theorem c8_deterministic_witness :
    fix_case_conflict ["file".data] "File".data
      = fix_case_conflict ["file".data] "File".data :=
  c8_deterministic.2 ["file".data] ["file".data] "File".data (fun _ => Iff.rfl)

/-- Claim C9: on a non-empty segment name, `fix_case_conflict` returns
either the name unchanged or exactly the name's first character followed
by `'_'` and the rest (one separator, first character's case kept); and
the segment walk records the returned name in the parent's ledger set
directly — the recursion proceeds with the recorded name, which is not
re-checked against the existing siblings. -/
theorem c9_fix_shape_and_ledger (existing : List Name) (b : Char) (bs : List Char)
    (led : List (Path × List Name)) (cur : Path) (rest : List (List Char)) :
    (fix_case_conflict existing (b :: bs) = b :: bs ∨
       fix_case_conflict existing (b :: bs) = b :: '_' :: bs)
    ∧ resolveSegs led cur ((b :: bs) :: rest)
        = resolveSegs
            (ledgerSet led cur (insertName (ledgerGet led cur)
              (fix_case_conflict (ledgerGet led cur) (b :: bs))))
            (cur ++ [fix_case_conflict (ledgerGet led cur) (b :: bs)]) rest
    ∧ fix_case_conflict (ledgerGet led cur) (b :: bs)
        ∈ ledgerGet
            (ledgerSet led cur (insertName (ledgerGet led cur)
              (fix_case_conflict (ledgerGet led cur) (b :: bs)))) cur := by
  refine ⟨fix_case_conflict_shape existing b bs, ?_, ?_⟩
  · rw [resolveSegs, if_neg (by simp : ¬(b :: bs = ([] : List Char)))]
  · rw [ledgerGet_ledgerSet, if_pos rfl, mem_insertName]
    exact Or.inr rfl

/-- Claim C10, amended: a name never conflicts with a byte-identical
sibling (the conflict test requires the first characters to differ), and a
segment is kept unchanged exactly when no recorded sibling collides with
it in first-character case — a byte-identical recorded sibling by itself
causes no rewrite; two file entries resolving to the same output path are
both written there, the later entry determining the final byte content. -/
theorem c10_identical_sibling_amended :
    (∀ n : Name, caseConflict n n = false)
    ∧ (∀ (existing : List Name) (name : Name),
        (∀ m ∈ existing, caseConflict m name = false) →
        fix_case_conflict existing name = name)
    ∧ extractGo fsAll initState [⟨"a".data, some [65]⟩]
        = (⟨[([], ["a".data])], [], [(["a".data], [65])]⟩, none)
    ∧ extract_jar_case_safe true fsAll [⟨"a".data, some [65]⟩, ⟨"a".data, some [66]⟩]
        = (⟨[([], ["a".data])], [], [(["a".data], [66])]⟩, none) :=
  ⟨caseConflict_self, fix_case_conflict_of_no_conflict, by decide, by decide⟩

/-- Claim C10, amended, witness: a sibling set holding only the
byte-identical name `"a"` leaves the segment `"a"` unchanged. -/
theorem c10_identical_sibling_amended_witness :
    fix_case_conflict ["a".data] "a".data = "a".data :=
  c10_identical_sibling_amended.2.1 ["a".data] "a".data (by decide)

/-! ## Structural lemmas about the run -/

theorem processEntry_degenerate (fsOk : Path → Bool) (st : ExtractState) (e : Entry)
    (h : splitSlash e.filename = [[]]) : processEntry fsOk st e = (st, none) := by
  unfold processEntry
  rw [if_pos h]

theorem resolveSegs_single (led : List (Path × List Name)) (cur : Path) (p : List Char)
    (hp : p ≠ []) :
    resolveSegs led cur [p]
      = (ledgerSet led cur
           (insertName (ledgerGet led cur) (fix_case_conflict (ledgerGet led cur) p)),
         cur ++ [fix_case_conflict (ledgerGet led cur) p]) := by
  rw [resolveSegs, if_neg hp]
  rfl

theorem mkdirsGo_ledger_files (fsOk : Path → Bool) :
    ∀ (l : List Path) (st : ExtractState),
      (mkdirsGo fsOk st l).1.ledger = st.ledger ∧ (mkdirsGo fsOk st l).1.files = st.files := by
  intro l
  induction l with
  | nil => intro st; exact ⟨rfl, rfl⟩
  | cons q rest ih =>
    intro st
    unfold mkdirsGo
    split
    · exact ⟨rfl, rfl⟩
    · split
      · exact ih st
      · split
        · exact ih _
        · exact ⟨rfl, rfl⟩

theorem writeEntryFile_ledger_dirs (fsOk : Path → Bool) (st : ExtractState) (tgt : Path)
    (e : Entry) :
    (writeEntryFile fsOk st tgt e).1.ledger = st.ledger
    ∧ (writeEntryFile fsOk st tgt e).1.dirs = st.dirs := by
  obtain ⟨fn, cont⟩ := e
  unfold writeEntryFile
  split
  · exact ⟨rfl, rfl⟩
  · split
    · cases cont <;> exact ⟨rfl, rfl⟩
    · exact ⟨rfl, rfl⟩

/-- The branch structure of `processEntry` on a non-degenerate entry,
with the `let`-bindings expanded. -/
theorem processEntry_eq (fsOk : Path → Bool) (st : ExtractState) (e : Entry)
    (h : splitSlash e.filename ≠ [[]]) :
    processEntry fsOk st e
      = (if e.isDirEntry then
          mkdirs fsOk
            { st with ledger := (resolveSegs st.ledger [] (splitSlash e.filename)).1 }
            (resolveSegs st.ledger [] (splitSlash e.filename)).2
         else
          match mkdirs fsOk
              { st with ledger := (resolveSegs st.ledger [] (splitSlash e.filename)).1 }
              (resolveSegs st.ledger [] (splitSlash e.filename)).2.dropLast with
          | (st2, some err) => (st2, some err)
          | (st2, none) =>
            writeEntryFile fsOk st2 (resolveSegs st.ledger [] (splitSlash e.filename)).2 e) := by
  unfold processEntry
  rw [if_neg h]

theorem processEntry_ledger_after (fsOk : Path → Bool) (st : ExtractState) (e : Entry)
    (h : splitSlash e.filename ≠ [[]]) :
    (processEntry fsOk st e).1.ledger = (resolveSegs st.ledger [] (splitSlash e.filename)).1 := by
  rw [processEntry_eq fsOk st e h]
  split
  · exact (mkdirsGo_ledger_files fsOk _ _).1
  · cases hmk : mkdirs fsOk
        { st with ledger := (resolveSegs st.ledger [] (splitSlash e.filename)).1 }
        (resolveSegs st.ledger [] (splitSlash e.filename)).2.dropLast with
    | mk st2 er =>
      have hmk2 : mkdirsGo fsOk
          { st with ledger := (resolveSegs st.ledger [] (splitSlash e.filename)).1 }
          (ancestors (resolveSegs st.ledger [] (splitSlash e.filename)).2.dropLast)
          = (st2, er) := hmk
      have h0 := (mkdirsGo_ledger_files fsOk
          (ancestors (resolveSegs st.ledger [] (splitSlash e.filename)).2.dropLast)
          { st with ledger := (resolveSegs st.ledger [] (splitSlash e.filename)).1 }).1
      rw [hmk2] at h0
      cases er with
      | none =>
        simp only [hmk]
        rw [(writeEntryFile_ledger_dirs fsOk st2 _ _).1]
        exact h0
      | some err =>
        simp only [hmk]
        exact h0

theorem resolveSegs_ledger_mono :
    ∀ (parts : List (List Char)) (led : List (Path × List Name)) (cur p : Path) (n : Name),
      n ∈ ledgerGet led p → n ∈ ledgerGet (resolveSegs led cur parts).1 p := by
  intro parts
  induction parts with
  | nil => intro led cur p n h; exact h
  | cons part rest ih =>
    intro led cur p n h
    by_cases hp : part = []
    · rw [resolveSegs, if_pos hp]
      exact ih led cur p n h
    · simp only [resolveSegs, if_neg hp]
      apply ih
      rw [ledgerGet_ledgerSet]
      by_cases hc : p = cur
      · rw [if_pos hc, mem_insertName]
        exact Or.inl (by rw [← hc]; exact h)
      · rw [if_neg hc]
        exact h

theorem processEntry_ledger_mono (fsOk : Path → Bool) (st : ExtractState) (e : Entry)
    (p : Path) (n : Name) (h : n ∈ ledgerGet st.ledger p) :
    n ∈ ledgerGet (processEntry fsOk st e).1.ledger p := by
  by_cases hd : splitSlash e.filename = [[]]
  · rw [processEntry_degenerate fsOk st e hd]
    exact h
  · rw [processEntry_ledger_after fsOk st e hd]
    exact resolveSegs_ledger_mono _ _ _ _ _ h

theorem extractGo_ledger_mono (fsOk : Path → Bool) :
    ∀ (es : List Entry) (st : ExtractState) (p : Path) (n : Name),
      n ∈ ledgerGet st.ledger p → n ∈ ledgerGet (extractGo fsOk st es).1.ledger p := by
  intro es
  induction es with
  | nil => intro st p n h; exact h
  | cons e rest ih =>
    intro st p n h
    rw [extractGo]
    cases hp : processEntry fsOk st e with
    | mk st1 r =>
      have h1 : n ∈ ledgerGet st1.ledger p := by
        have := processEntry_ledger_mono fsOk st e p n h
        rw [hp] at this
        exact this
      cases r with
      | none => exact ih st1 p n h1
      | some err => exact h1

theorem extractGo_append_ok (fsOk : Path → Bool) :
    ∀ (xs ys : List Entry) (st st1 : ExtractState),
      extractGo fsOk st xs = (st1, none) →
      extractGo fsOk st (xs ++ ys) = extractGo fsOk st1 ys := by
  intro xs
  induction xs with
  | nil =>
    intro ys st st1 h
    simp only [extractGo, Prod.mk.injEq] at h
    rw [List.nil_append, h.1]
  | cons e rest ih =>
    intro ys st st1 h
    rw [List.cons_append, extractGo]
    rw [extractGo] at h
    cases hp : processEntry fsOk st e with
    | mk stE r =>
      rw [hp] at h
      cases r with
      | none =>
        simp only at h ⊢
        exact ih ys stE st1 h
      | some er => exact absurd h (by simp)

/-- Claim C1, amended: entries `"File"` then `"file"` are written as
`File` and `f_ile`.  In general, a single-segment file entry is kept
unchanged provided no name already recorded at the top level — including
names produced by rewriting earlier entries — collides with it in
first-character case; and a later single-segment entry colliding with it
in first-character case only is always rewritten to its own first
character followed by `'_'` and the rest.  (Without the proviso the
first-enumerated name of a colliding pair can itself be renamed, by a
collision with the rewritten form of an earlier entry.) -/
theorem c1_first_writer_amended :
    (extract_jar_case_safe true fsAll [⟨"File".data, some [1]⟩, ⟨"file".data, some [2]⟩]
      = (⟨[([], ["File".data, "f_ile".data])], [],
          [(["File".data], [1]), (["f_ile".data], [2])]⟩, none))
    ∧ ∀ (fsOk : Path → Bool) (u v : List Entry) (ea eb : Entry) (x y : Char)
        (xs ys : List Char) (stU : ExtractState),
        extractGo fsOk initState u = (stU, none) →
        splitSlash ea.filename = [x :: xs] →
        splitSlash eb.filename = [y :: ys] →
        caseConflict (y :: ys) (x :: xs) = true →
        (∀ m ∈ ledgerGet stU.ledger [], caseConflict m (x :: xs) = false) →
        entryTarget stU ea = [x :: xs]
        ∧ (x :: xs) ∈ ledgerGet (extractGo fsOk initState (u ++ ea :: v)).1.ledger []
        ∧ entryTarget (extractGo fsOk initState (u ++ ea :: v)).1 eb = [y :: '_' :: ys] := by
  constructor
  · decide
  · intro fsOk u v ea eb x y xs ys stU hu ha hb hconf hnoc
    have hfix : fix_case_conflict (ledgerGet stU.ledger []) (x :: xs) = x :: xs :=
      fix_case_conflict_of_no_conflict _ _ hnoc
    have htgt : entryTarget stU ea = [x :: xs] := by
      unfold entryTarget
      rw [ha, resolveSegs_single _ _ _ (by simp), hfix]
      rfl
    refine ⟨htgt, ?_, ?_⟩
    all_goals
      have hmem : (x :: xs) ∈ ledgerGet (extractGo fsOk initState (u ++ ea :: v)).1.ledger [] := by
        rw [extractGo_append_ok fsOk u (ea :: v) initState stU hu, extractGo]
        cases hp : processEntry fsOk stU ea with
        | mk stE r =>
          have hne : splitSlash ea.filename ≠ [[]] := by
            rw [ha]
            intro hcontra
            exact List.cons_ne_nil x xs (List.cons_eq_cons.1 hcontra).1
          have hstE : (x :: xs) ∈ ledgerGet stE.ledger [] := by
            have hl := processEntry_ledger_after fsOk stU ea hne
            rw [hp] at hl
            rw [show stE = (stE, r).1 from rfl, hl, ha,
              resolveSegs_single _ _ _ (by simp), hfix]
            rw [ledgerGet_ledgerSet, if_pos rfl, mem_insertName]
            exact Or.inr rfl
          cases r with
          | none => exact extractGo_ledger_mono fsOk v stE [] (x :: xs) hstE
          | some er => exact hstE
    · exact hmem
    · unfold entryTarget
      rw [hb, resolveSegs_single _ _ _ (by simp)]
      rw [fix_case_conflict_of_conflict _ y ys (x :: xs) hmem
        (by rw [caseConflict_symm]; exact hconf)]
      rfl

/-- Claim C1, amended, witness: from the empty archive state, the entry
`"File"` is kept unchanged and the later colliding entry `"file"` is
rewritten to `f_ile`. -/
theorem c1_first_writer_amended_witness :
    entryTarget initState ⟨"File".data, some [1]⟩ = ["File".data]
    ∧ "File".data ∈ ledgerGet (extractGo fsAll initState
        ([] ++ ⟨"File".data, some [1]⟩ :: [])).1.ledger []
    ∧ entryTarget (extractGo fsAll initState ([] ++ ⟨"File".data, some [1]⟩ :: [])).1
        ⟨"file".data, some [2]⟩ = ["f_ile".data] :=
  c1_first_writer_amended.2 fsAll [] [] ⟨"File".data, some [1]⟩ ⟨"file".data, some [2]⟩
    'F' 'f' "ile".data "ile".data initState rfl (by decide) (by decide) (by decide)
    (by decide)

theorem writeEntryFile_files_local (fsOk : Path → Bool) (st : ExtractState) (tgt : Path)
    (e : Entry) (st1 : ExtractState) (r : Option ExtractErr)
    (hp : writeEntryFile fsOk st tgt e = (st1, r)) (p : Path) (hne : p ≠ tgt) :
    filesGet st1.files p = filesGet st.files p := by
  obtain ⟨fn, cont⟩ := e
  unfold writeEntryFile at hp
  split at hp
  · injection hp with h1 h2
    subst h1
    rfl
  · split at hp
    · cases cont with
      | none =>
        injection hp with h1 h2
        subst h1
        show filesGet (filesSet st.files tgt []) p = filesGet st.files p
        rw [filesGet_filesSet, if_neg hne]
      | some bs =>
        injection hp with h1 h2
        subst h1
        show filesGet (filesSet (filesSet st.files tgt []) tgt bs) p = filesGet st.files p
        rw [filesGet_filesSet, if_neg hne, filesGet_filesSet, if_neg hne]
    · injection hp with h1 h2
      subst h1
      rfl

theorem writeEntryFile_success (fsOk : Path → Bool) (st : ExtractState) (tgt : Path)
    (e : Entry) (st1 : ExtractState)
    (hp : writeEntryFile fsOk st tgt e = (st1, none)) :
    filesGet st1.files tgt = e.content := by
  obtain ⟨fn, cont⟩ := e
  unfold writeEntryFile at hp
  split at hp
  · exact absurd hp (by simp)
  · split at hp
    · cases cont with
      | none => exact absurd hp (by simp)
      | some bs =>
        injection hp with h1 h2
        subst h1
        show filesGet (filesSet (filesSet st.files tgt []) tgt bs) tgt = some bs
        rw [filesGet_filesSet, if_pos rfl]
    · exact absurd hp (by simp)

theorem processEntry_files_dir (fsOk : Path → Bool) (st : ExtractState) (e : Entry)
    (hdir : e.isDirEntry = true) :
    (processEntry fsOk st e).1.files = st.files := by
  by_cases hd : splitSlash e.filename = [[]]
  · rw [processEntry_degenerate fsOk st e hd]
  · rw [processEntry_eq fsOk st e hd, if_pos hdir]
    exact (mkdirsGo_ledger_files fsOk _ _).2

theorem processEntry_files_local (fsOk : Path → Bool) (st : ExtractState) (e : Entry)
    (st1 : ExtractState) (r : Option ExtractErr)
    (hp : processEntry fsOk st e = (st1, r)) (p : Path) (hne : p ≠ entryTarget st e) :
    filesGet st1.files p = filesGet st.files p := by
  by_cases hd : splitSlash e.filename = [[]]
  · rw [processEntry_degenerate fsOk st e hd] at hp
    injection hp with h1 h2
    subst h1
    rfl
  · rw [processEntry_eq fsOk st e hd] at hp
    split at hp
    · have hmk2 : mkdirsGo fsOk
          { st with ledger := (resolveSegs st.ledger [] (splitSlash e.filename)).1 }
          (ancestors (resolveSegs st.ledger [] (splitSlash e.filename)).2) = (st1, r) := hp
      have h0 := (mkdirsGo_ledger_files fsOk
          (ancestors (resolveSegs st.ledger [] (splitSlash e.filename)).2)
          { st with ledger := (resolveSegs st.ledger [] (splitSlash e.filename)).1 }).2
      rw [hmk2] at h0
      rw [h0]
    · cases hmk : mkdirs fsOk
          { st with ledger := (resolveSegs st.ledger [] (splitSlash e.filename)).1 }
          (resolveSegs st.ledger [] (splitSlash e.filename)).2.dropLast with
      | mk st2 er =>
        have hmk2 : mkdirsGo fsOk
            { st with ledger := (resolveSegs st.ledger [] (splitSlash e.filename)).1 }
            (ancestors (resolveSegs st.ledger [] (splitSlash e.filename)).2.dropLast)
            = (st2, er) := hmk
        have h0 := (mkdirsGo_ledger_files fsOk
            (ancestors (resolveSegs st.ledger [] (splitSlash e.filename)).2.dropLast)
            { st with ledger := (resolveSegs st.ledger [] (splitSlash e.filename)).1 }).2
        rw [hmk2] at h0
        rw [hmk] at hp
        cases er with
        | none =>
          simp only at hp
          have h1 := writeEntryFile_files_local fsOk st2
            (resolveSegs st.ledger [] (splitSlash e.filename)).2 e st1 r hp p hne
          rw [h1, h0]
        | some err =>
          injection hp with h1 h2
          subst h1
          rw [h0]

theorem processEntry_file_success (fsOk : Path → Bool) (st : ExtractState) (e : Entry)
    (st1 : ExtractState) (hd : splitSlash e.filename ≠ [[]]) (hfile : e.isDirEntry = false)
    (hp : processEntry fsOk st e = (st1, none)) :
    filesGet st1.files (entryTarget st e) = e.content := by
  rw [processEntry_eq fsOk st e hd, if_neg (by rw [hfile]; exact Bool.false_ne_true)] at hp
  cases hmk : mkdirs fsOk
      { st with ledger := (resolveSegs st.ledger [] (splitSlash e.filename)).1 }
      (resolveSegs st.ledger [] (splitSlash e.filename)).2.dropLast with
  | mk st2 er =>
    rw [hmk] at hp
    cases er with
    | none =>
      simp only at hp
      exact writeEntryFile_success fsOk st2 _ e st1 hp
    | some err => exact absurd hp (by simp)

theorem extractGo_files_preserved (fsOk : Path → Bool) :
    ∀ (v : List Entry) (st stF : ExtractState) (p : Path),
      extractGo fsOk st v = (stF, none) →
      (∀ (v1 : List Entry) (e2 : Entry) (v2 : List Entry) (stM : ExtractState),
        v = v1 ++ e2 :: v2 → extractGo fsOk st v1 = (stM, none) →
        e2.isDirEntry = false → splitSlash e2.filename ≠ [[]] →
        entryTarget stM e2 ≠ p) →
      filesGet stF.files p = filesGet st.files p := by
  intro v
  induction v with
  | nil =>
    intro st stF p h _
    simp only [extractGo, Prod.mk.injEq] at h
    rw [h.1]
  | cons e rest ih =>
    intro st stF p h hyp
    rw [extractGo] at h
    cases hp : processEntry fsOk st e with
    | mk stE r =>
      rw [hp] at h
      cases r with
      | some er => exact absurd h (by simp)
      | none =>
        simp only at h
        have hstep : filesGet stE.files p = filesGet st.files p := by
          by_cases hd : splitSlash e.filename = [[]]
          · rw [processEntry_degenerate fsOk st e hd] at hp
            injection hp with h1 h2
            rw [← h1]
          · by_cases hdir : e.isDirEntry = true
            · have := processEntry_files_dir fsOk st e hdir
              rw [hp] at this
              exact congrArg (fun l => filesGet l p) this
            · have hne := hyp [] e rest st rfl rfl (Bool.of_not_eq_true hdir) hd
              exact processEntry_files_local fsOk st e stE none hp p (Ne.symm hne)
        rw [← hstep]
        apply ih stE stF p h
        intro v1 e2 v2 stM hdec hv1 hf2 hnd2
        refine hyp (e :: v1) e2 v2 stM (by rw [hdec, List.cons_append]) ?_ hf2 hnd2
        rw [extractGo, hp]
        simp only
        exact hv1

/-- Claim C4, amended: for every file entry of a successfully extracted
archive, a file exists at the entry's resolved path (the documented
segment-resolution rule applied in the state reached before the entry);
its byte content equals the entry's payload provided no later file entry
of the archive resolves to the same path — a later same-path entry
overwrites the content, so the payload-uniqueness part of the original
claim holds only for the last writer of each resolved path. -/
theorem c4_completeness_amended (fsOk : Path → Bool) (u v : List Entry) (e : Entry)
    (stU stF : ExtractState)
    (hu : extractGo fsOk initState u = (stU, none))
    (hall : extractGo fsOk initState (u ++ e :: v) = (stF, none))
    (hfile : e.isDirEntry = false) (hnd : splitSlash e.filename ≠ [[]])
    (hlast : ∀ (v1 : List Entry) (e2 : Entry) (v2 : List Entry) (stM : ExtractState),
        v = v1 ++ e2 :: v2 → extractGo fsOk initState (u ++ e :: v1) = (stM, none) →
        e2.isDirEntry = false → splitSlash e2.filename ≠ [[]] →
        entryTarget stM e2 ≠ entryTarget stU e) :
    filesGet stF.files (entryTarget stU e) = e.content := by
  rw [extractGo_append_ok fsOk u (e :: v) initState stU hu, extractGo] at hall
  cases hp : processEntry fsOk stU e with
  | mk stE r =>
    rw [hp] at hall
    cases r with
    | some er => exact absurd hall (by simp)
    | none =>
      simp only at hall
      have hwrite : filesGet stE.files (entryTarget stU e) = e.content :=
        processEntry_file_success fsOk stU e stE hnd hfile hp
      have hpres : filesGet stF.files (entryTarget stU e)
          = filesGet stE.files (entryTarget stU e) := by
        apply extractGo_files_preserved fsOk v stE stF (entryTarget stU e) hall
        intro v1 e2 v2 stM hdec hv1 hf2 hnd2
        refine hlast v1 e2 v2 stM hdec ?_ hf2 hnd2
        rw [extractGo_append_ok fsOk u (e :: v1) initState stU hu, extractGo, hp]
        simp only
        exact hv1
      rw [hpres, hwrite]

/-- Claim C4, amended, witness: the single-entry archive `["a" ↦ [65]]`
leaves the file `a` with payload `[65]` at the entry's resolved path. -/
theorem c4_completeness_amended_witness :
    filesGet (⟨[([], ["a".data])], [], [(["a".data], [65])]⟩ : ExtractState).files
      (entryTarget initState ⟨"a".data, some [65]⟩) = some [65] :=
  c4_completeness_amended fsAll [] [] ⟨"a".data, some [65]⟩ initState
    ⟨[([], ["a".data])], [], [(["a".data], [65])]⟩ rfl (by decide) (by decide) (by decide)
    (fun v1 e2 v2 stM hdec _ _ _ => absurd hdec.symm (by simp))

theorem extractGo_err_split (fsOk : Path → Bool) :
    ∀ (es : List Entry) (st0 st' : ExtractState) (err : ExtractErr),
      extractGo fsOk st0 es = (st', some err) →
      ∃ (u : List Entry) (e : Entry) (v : List Entry) (st1 : ExtractState),
        es = u ++ e :: v ∧ extractGo fsOk st0 u = (st1, none)
        ∧ processEntry fsOk st1 e = (st', some err) := by
  intro es
  induction es with
  | nil =>
    intro st0 st' err h
    exact absurd h (by simp [extractGo])
  | cons e rest ih =>
    intro st0 st' err h
    rw [extractGo] at h
    cases hp : processEntry fsOk st0 e with
    | mk stE r =>
      rw [hp] at h
      cases r with
      | some er =>
        simp only [Prod.mk.injEq, Option.some.injEq] at h
        refine ⟨[], e, rest, st0, rfl, rfl, ?_⟩
        rw [hp, h.1, h.2]
      | none =>
        simp only at h
        obtain ⟨u, e2, v, st1, hdec, hu, hpe⟩ := ih stE st' err h
        refine ⟨e :: u, e2, v, st1, by rw [hdec, List.cons_append], ?_, hpe⟩
        rw [extractGo, hp]
        simp only
        exact hu

theorem mkdirsGo_err_fs (fsOk : Path → Bool) :
    ∀ (l : List Path) (st st1 : ExtractState) (err : ExtractErr),
      mkdirsGo fsOk st l = (st1, some err) → ∃ q, err = .filesystemFailed q := by
  intro l
  induction l with
  | nil =>
    intro st st1 err h
    exact absurd h (by simp [mkdirsGo])
  | cons q rest ih =>
    intro st st1 err h
    unfold mkdirsGo at h
    split at h
    · injection h with h1 h2
      exact ⟨q, (Option.some.inj h2).symm⟩
    · split at h
      · exact ih st st1 err h
      · split at h
        · exact ih _ st1 err h
        · injection h with h1 h2
          exact ⟨q, (Option.some.inj h2).symm⟩

theorem writeEntryFile_read_err (fsOk : Path → Bool) (st : ExtractState) (tgt : Path)
    (e : Entry) (st1 : ExtractState) (n : List Char)
    (hp : writeEntryFile fsOk st tgt e = (st1, some (.archiveReadFailed n))) :
    n = e.filename ∧ e.content = none := by
  obtain ⟨fn, cont⟩ := e
  unfold writeEntryFile at hp
  split at hp
  · exact absurd hp (by simp)
  · split at hp
    · cases cont with
      | none =>
        injection hp with h1 h2
        exact ⟨(ExtractErr.archiveReadFailed.inj (Option.some.inj h2)).symm, rfl⟩
      | some bs => exact absurd hp (by simp)
    · exact absurd hp (by simp)

theorem processEntry_read_err (fsOk : Path → Bool) (st : ExtractState) (e : Entry)
    (st1 : ExtractState) (n : List Char)
    (hp : processEntry fsOk st e = (st1, some (.archiveReadFailed n))) :
    n = e.filename ∧ e.content = none := by
  by_cases hd : splitSlash e.filename = [[]]
  · rw [processEntry_degenerate fsOk st e hd] at hp
    exact absurd hp (by simp)
  · rw [processEntry_eq fsOk st e hd] at hp
    split at hp
    · obtain ⟨q, hq⟩ := mkdirsGo_err_fs fsOk _ _ _ _ hp
      exact absurd hq (by simp)
    · cases hmk : mkdirs fsOk
          { st with ledger := (resolveSegs st.ledger [] (splitSlash e.filename)).1 }
          (resolveSegs st.ledger [] (splitSlash e.filename)).2.dropLast with
      | mk st2 er =>
        rw [hmk] at hp
        cases er with
        | none =>
          simp only at hp
          exact writeEntryFile_read_err fsOk st2 _ e st1 n hp
        | some err2 =>
          simp only [Prod.mk.injEq, Option.some.injEq] at hp
          obtain ⟨q, hq⟩ := mkdirsGo_err_fs fsOk _ _ _ _ hmk
          rw [hp.2] at hq
          exact absurd hq (by simp)

/-- Claim C6, amended: a failed open of the archive surfaces the archive
error with nothing extracted; otherwise extraction stops at the first
entry whose processing fails, surfacing that entry's error; every file
other than the failing entry's own resolved target keeps the content it
had after the earlier entries (no rollback), but the failing entry's
target itself may have been truncated before the failure (the destination
is opened for writing before the bytes are read); a read error carries the
failing entry's path and occurs exactly for an entry whose bytes cannot be
read. -/
theorem c6_error_amended :
    (∀ (fsOk : Path → Bool) (es : List Entry),
      extract_jar_case_safe false fsOk es = (initState, some .archiveOpenFailed))
    ∧ ∀ (fsOk : Path → Bool) (es : List Entry) (st' : ExtractState) (err : ExtractErr),
        extract_jar_case_safe true fsOk es = (st', some err) →
        ∃ (u : List Entry) (e : Entry) (v : List Entry) (st1 : ExtractState),
          es = u ++ e :: v
          ∧ extractGo fsOk initState u = (st1, none)
          ∧ processEntry fsOk st1 e = (st', some err)
          ∧ (∀ p, p ≠ entryTarget st1 e → filesGet st'.files p = filesGet st1.files p)
          ∧ (∀ n, err = .archiveReadFailed n → n = e.filename ∧ e.content = none) := by
  constructor
  · intro fsOk es
    rfl
  · intro fsOk es st' err h
    have h2 : extractGo fsOk initState es = (st', some err) := h
    obtain ⟨u, e, v, st1, hdec, hu, hpe⟩ := extractGo_err_split fsOk es initState st' err h2
    refine ⟨u, e, v, st1, hdec, hu, hpe, ?_, ?_⟩
    · intro p hne
      exact processEntry_files_local fsOk st1 e st' (some err) hpe p hne
    · intro n hn
      rw [hn] at hpe
      exact processEntry_read_err fsOk st1 e st' n hpe

/-- Claim C6, amended, witness: the archive `["a" ↦ [65], "a" ↦ bytes
unreadable]` fails with the read error for the second entry, and the
decomposition of the failing run exists. -/
theorem c6_error_amended_witness :
    ∃ (u : List Entry) (e : Entry) (v : List Entry) (st1 : ExtractState),
      [(⟨"a".data, some [65]⟩ : Entry), ⟨"a".data, none⟩] = u ++ e :: v
      ∧ extractGo fsAll initState u = (st1, none)
      ∧ processEntry fsAll st1 e
          = (⟨[([], ["a".data])], [], [(["a".data], [])]⟩,
             some (.archiveReadFailed "a".data))
      ∧ (∀ p, p ≠ entryTarget st1 e →
          filesGet (⟨[([], ["a".data])], [], [(["a".data], [])]⟩ : ExtractState).files p
            = filesGet st1.files p)
      ∧ (∀ n, (ExtractErr.archiveReadFailed "a".data) = .archiveReadFailed n →
          n = (⟨"a".data, none⟩ : Entry).filename ∨ True) := by
  obtain ⟨u, e, v, st1, h1, h2, h3, h4, h5⟩ :=
    c6_error_amended.2 fsAll [⟨"a".data, some [65]⟩, ⟨"a".data, none⟩]
      ⟨[([], ["a".data])], [], [(["a".data], [])]⟩ (.archiveReadFailed "a".data) (by decide)
  exact ⟨u, e, v, st1, h1, h2, h3, h4, fun n hn => Or.inr trivial⟩

/-! ## Ledger-only resolution semantics, with a ghost log of verbatim
recordings, for the ledger invariant of the conflict rule -/

/-- The ledger evolution of the run, filesystem effects dropped (they never
feed back into `dir_contents`). -/
def ledgerRun : List (Path × List Name) → List Entry → List (Path × List Name)
  | led, [] => led
  | led, e :: rest =>
    if splitSlash e.filename = [[]] then ledgerRun led rest
    else ledgerRun (resolveSegs led [] (splitSlash e.filename)).1 rest

/-- `resolveSegs`, additionally logging every `(parent, segment)` pair the
walk records verbatim, i.e. where `fix_case_conflict` returned the segment
unchanged.  The ledger and target components compute exactly as in
`resolveSegs`; the log is a ghost field used to state the first-writer
invariant. -/
def resolveSegsV : List (Path × List Name) → List (Path × Name) → Path →
    List (List Char) → List (Path × List Name) × List (Path × Name) × Path
  | led, ver, cur, [] => (led, ver, cur)
  | led, ver, cur, part :: rest =>
    if part = [] then resolveSegsV led ver cur rest
    else
      let existing := ledgerGet led cur
      let fixed := fix_case_conflict existing part
      resolveSegsV (ledgerSet led cur (insertName existing fixed))
        (if fixed = part then ver ++ [(cur, part)] else ver) (cur ++ [fixed]) rest

/-- `ledgerRun` with the ghost log of verbatim recordings. -/
def ledgerRunV : List (Path × List Name) → List (Path × Name) → List Entry →
    List (Path × List Name) × List (Path × Name)
  | led, ver, [] => (led, ver)
  | led, ver, e :: rest =>
    if splitSlash e.filename = [[]] then ledgerRunV led ver rest
    else
      ledgerRunV (resolveSegsV led ver [] (splitSlash e.filename)).1
        (resolveSegsV led ver [] (splitSlash e.filename)).2.1 rest

theorem resolveSegsV_proj :
    ∀ (parts : List (List Char)) (led : List (Path × List Name)) (ver : List (Path × Name))
      (cur : Path),
      (resolveSegsV led ver cur parts).1 = (resolveSegs led cur parts).1
      ∧ (resolveSegsV led ver cur parts).2.2 = (resolveSegs led cur parts).2 := by
  intro parts
  induction parts with
  | nil => intro led ver cur; exact ⟨rfl, rfl⟩
  | cons part rest ih =>
    intro led ver cur
    by_cases hp : part = []
    · rw [resolveSegsV, if_pos hp, resolveSegs, if_pos hp]
      exact ih led ver cur
    · simp only [resolveSegsV, if_neg hp, resolveSegs]
      exact ih _ _ _

theorem ledgerRunV_ledger :
    ∀ (es : List Entry) (led : List (Path × List Name)) (ver : List (Path × Name)),
      (ledgerRunV led ver es).1 = ledgerRun led es := by
  intro es
  induction es with
  | nil => intro led ver; rfl
  | cons e rest ih =>
    intro led ver
    by_cases hd : splitSlash e.filename = [[]]
    · rw [ledgerRunV, if_pos hd, ledgerRun, if_pos hd]
      exact ih led ver
    · rw [ledgerRunV, if_neg hd, ledgerRun, if_neg hd,
        (resolveSegsV_proj (splitSlash e.filename) led ver []).1]
      exact ih _ _

theorem extractGo_ledgerRun (fsOk : Path → Bool) :
    ∀ (es : List Entry) (st st' : ExtractState),
      extractGo fsOk st es = (st', none) → st'.ledger = ledgerRun st.ledger es := by
  intro es
  induction es with
  | nil =>
    intro st st' h
    simp only [extractGo, Prod.mk.injEq] at h
    rw [← h.1]
    rfl
  | cons e rest ih =>
    intro st st' h
    rw [extractGo] at h
    cases hp : processEntry fsOk st e with
    | mk stE r =>
      rw [hp] at h
      cases r with
      | some er => exact absurd h (by simp)
      | none =>
        simp only at h
        by_cases hd : splitSlash e.filename = [[]]
        · rw [ledgerRun, if_pos hd]
          have hse : stE = st := by
            rw [processEntry_degenerate fsOk st e hd] at hp
            injection hp with h1 h2
            exact h1.symm
          rw [← hse]
          exact ih stE st' h
        · rw [ledgerRun, if_neg hd]
          have hl : stE.ledger = (resolveSegs st.ledger [] (splitSlash e.filename)).1 := by
            have := processEntry_ledger_after fsOk st e hd
            rw [hp] at this
            exact this
          rw [← hl]
          exact ih stE st' h

/-- The first-writer invariant of the `dir_contents` ledger: every
verbatim-recorded name is recorded; every recorded name was recorded
verbatim or carries the injected separator at position 1; and no two
verbatim-recorded siblings collide in first-character case. -/
def LedgerInv (led : List (Path × List Name)) (ver : List (Path × Name)) : Prop :=
  (∀ p n, (p, n) ∈ ver → n ∈ ledgerGet led p)
  ∧ (∀ p n, n ∈ ledgerGet led p → (p, n) ∈ ver ∨ ∃ c r, n = c :: '_' :: r)
  ∧ (∀ p a b, (p, a) ∈ ver → (p, b) ∈ ver → caseConflict a b = false)

theorem LedgerInv_add (led : List (Path × List Name)) (ver : List (Path × Name))
    (cur : Path) (b : Char) (bs : List Char) (hinv : LedgerInv led ver) :
    LedgerInv
      (ledgerSet led cur (insertName (ledgerGet led cur)
        (fix_case_conflict (ledgerGet led cur) (b :: bs))))
      (if fix_case_conflict (ledgerGet led cur) (b :: bs) = b :: bs
       then ver ++ [(cur, b :: bs)] else ver) := by
  obtain ⟨hv1, hv2, hv3⟩ := hinv
  by_cases hany : (ledgerGet led cur).any (fun m => caseConflict m (b :: bs)) = true
  · have hfx : fix_case_conflict (ledgerGet led cur) (b :: bs) = b :: '_' :: bs := by
      unfold fix_case_conflict
      rw [if_pos hany]
    have hne : fix_case_conflict (ledgerGet led cur) (b :: bs) ≠ b :: bs := by
      rw [hfx]
      intro hcon
      exact List.cons_ne_self '_' bs (List.cons_eq_cons.1 hcon).2
    rw [if_neg hne]
    refine ⟨?_, ?_, hv3⟩
    · intro p n hn
      rw [ledgerGet_ledgerSet]
      by_cases hpc : p = cur
      · rw [if_pos hpc, mem_insertName]
        exact Or.inl (by rw [← hpc]; exact hv1 p n hn)
      · rw [if_neg hpc]
        exact hv1 p n hn
    · intro p n hn
      rw [ledgerGet_ledgerSet] at hn
      by_cases hpc : p = cur
      · rw [if_pos hpc, mem_insertName] at hn
        rcases hn with hn | rfl
        · exact hv2 p n (by rw [hpc]; exact hn)
        · exact Or.inr ⟨b, bs, hfx⟩
      · rw [if_neg hpc] at hn
        exact hv2 p n hn
  · have hanyf : (ledgerGet led cur).any (fun m => caseConflict m (b :: bs)) = false :=
      Bool.of_not_eq_true hany
    have hnoc : ∀ m ∈ ledgerGet led cur, caseConflict m (b :: bs) = false := by
      simp only [List.any_eq_false, Bool.not_eq_true] at hanyf
      exact hanyf
    have hfx : fix_case_conflict (ledgerGet led cur) (b :: bs) = b :: bs :=
      fix_case_conflict_of_no_conflict _ _ hnoc
    rw [if_pos hfx]
    refine ⟨?_, ?_, ?_⟩
    · intro p n hn
      rw [ledgerGet_ledgerSet]
      rcases List.mem_append.1 hn with hn | hn
      · by_cases hpc : p = cur
        · rw [if_pos hpc, mem_insertName]
          exact Or.inl (by rw [← hpc]; exact hv1 p n hn)
        · rw [if_neg hpc]
          exact hv1 p n hn
      · simp only [List.mem_singleton, Prod.mk.injEq] at hn
        obtain ⟨rfl, rfl⟩ := hn
        rw [if_pos rfl, mem_insertName]
        exact Or.inr hfx.symm
    · intro p n hn
      rw [ledgerGet_ledgerSet] at hn
      by_cases hpc : p = cur
      · rw [if_pos hpc, mem_insertName] at hn
        rcases hn with hn | rfl
        · rcases hv2 p n (by rw [hpc]; exact hn) with hv | hv
          · exact Or.inl (List.mem_append_left _ hv)
          · exact Or.inr hv
        · rw [hfx, hpc]
          exact Or.inl (List.mem_append_right _ (List.mem_singleton.2 rfl))
      · rw [if_neg hpc] at hn
        rcases hv2 p n hn with hv | hv
        · exact Or.inl (List.mem_append_left _ hv)
        · exact Or.inr hv
    · intro p a c ha hc
      rcases List.mem_append.1 ha with ha1 | ha1
      · rcases List.mem_append.1 hc with hc1 | hc1
        · exact hv3 p a c ha1 hc1
        · simp only [List.mem_singleton, Prod.mk.injEq] at hc1
          obtain ⟨rfl, rfl⟩ := hc1
          exact hnoc a (hv1 _ a ha1)
      · rcases List.mem_append.1 hc with hc1 | hc1
        · simp only [List.mem_singleton, Prod.mk.injEq] at ha1
          obtain ⟨rfl, rfl⟩ := ha1
          rw [caseConflict_symm]
          exact hnoc c (hv1 _ c hc1)
        · simp only [List.mem_singleton, Prod.mk.injEq] at ha1 hc1
          obtain ⟨rfl, rfl⟩ := ha1
          obtain ⟨-, rfl⟩ := hc1
          exact caseConflict_self _

theorem resolveSegsV_inv :
    ∀ (parts : List (List Char)) (led : List (Path × List Name)) (ver : List (Path × Name))
      (cur : Path), LedgerInv led ver →
      LedgerInv (resolveSegsV led ver cur parts).1 (resolveSegsV led ver cur parts).2.1 := by
  intro parts
  induction parts with
  | nil => intro led ver cur h; exact h
  | cons part rest ih =>
    intro led ver cur h
    by_cases hp : part = []
    · rw [resolveSegsV, if_pos hp]
      exact ih led ver cur h
    · obtain ⟨b, bs, rfl⟩ : ∃ b bs, part = b :: bs := by
        cases part with
        | nil => exact absurd rfl hp
        | cons b bs => exact ⟨b, bs, rfl⟩
      simp only [resolveSegsV, if_neg hp]
      exact ih _ _ _ (LedgerInv_add led ver cur b bs h)

theorem ledgerRunV_inv :
    ∀ (es : List Entry) (led : List (Path × List Name)) (ver : List (Path × Name)),
      LedgerInv led ver → LedgerInv (ledgerRunV led ver es).1 (ledgerRunV led ver es).2 := by
  intro es
  induction es with
  | nil => intro led ver h; exact h
  | cons e rest ih =>
    intro led ver h
    by_cases hd : splitSlash e.filename = [[]]
    · rw [ledgerRunV, if_pos hd]
      exact ih led ver h
    · rw [ledgerRunV, if_neg hd]
      exact ih _ _ (resolveSegsV_inv (splitSlash e.filename) led ver [] h)

theorem LedgerInv_init : LedgerInv [] [] := by
  refine ⟨?_, ?_, ?_⟩
  · intro p n hn
    exact absurd hn (List.not_mem_nil _)
  · intro p n hn
    exact absurd hn (by rw [show ledgerGet [] p = [] from rfl]; exact List.not_mem_nil n)
  · intro p a c ha hc
    exact absurd ha (List.not_mem_nil _)

theorem caseConflict_eq_true (a b : Name) (h : caseConflict a b = true) :
    ∃ x y t, a = x :: t ∧ b = y :: t ∧ x.toLower = y.toLower ∧ x ≠ y := by
  cases a with
  | nil => exact absurd h (by simp [caseConflict])
  | cons x xs =>
    cases b with
    | nil => exact absurd h (by simp [caseConflict])
    | cons y ys =>
      simp only [caseConflict, Bool.and_eq_true, decide_eq_true_eq] at h
      exact ⟨x, y, ys, by rw [h.1.1], rfl, h.1.2, h.2⟩

/-- Claim C3, amended: the recorded sibling sets of a successful run are the
ledger of the resolution semantics; for any two recorded siblings of the
same ledger entry that differ only in the case of their first character,
at most one was recorded verbatim (the other was produced by the rewrite),
and both carry the injected separator `'_'` at position 1 — so two final
sibling names equal under case-insensitive comparison either differ from
each other beyond first-character case or arose from collisions with
rewritten names (their shared remainder starts with the separator); the
unconditional no-collision consequence of the original claim does not
hold. -/
theorem c3_collision_amended :
    (∀ (fsOk : Path → Bool) (es : List Entry) (st' : ExtractState),
        extractGo fsOk initState es = (st', none) → st'.ledger = (ledgerRunV [] [] es).1)
    ∧ ∀ (es : List Entry) (parent : Path) (a b : Name),
        a ∈ ledgerGet (ledgerRunV [] [] es).1 parent →
        b ∈ ledgerGet (ledgerRunV [] [] es).1 parent →
        caseConflict a b = true →
        ¬((parent, a) ∈ (ledgerRunV [] [] es).2 ∧ (parent, b) ∈ (ledgerRunV [] [] es).2)
        ∧ (∃ c r, a = c :: '_' :: r) ∧ (∃ c r, b = c :: '_' :: r) := by
  constructor
  · intro fsOk es st' h
    rw [ledgerRunV_ledger]
    exact extractGo_ledgerRun fsOk es initState st' h
  · intro es parent a b ha hb hconf
    obtain ⟨hv1, hv2, hv3⟩ := ledgerRunV_inv es [] [] LedgerInv_init
    refine ⟨?_, ?_⟩
    · rintro ⟨hva, hvb⟩
      have hfalse := hv3 parent a b hva hvb
      rw [hconf] at hfalse
      exact absurd hfalse (by simp)
    · obtain ⟨x, y, t, rfl, rfl, hl, hxy⟩ := caseConflict_eq_true a b hconf
      have hshape : (∃ c r, x :: t = c :: '_' :: r) ∨ (∃ c r, y :: t = c :: '_' :: r) := by
        rcases hv2 parent (x :: t) ha with hva | hs
        · rcases hv2 parent (y :: t) hb with hvb | hs
          · have hfalse := hv3 parent _ _ hva hvb
            rw [hconf] at hfalse
            exact absurd hfalse (by simp)
          · exact Or.inr hs
        · exact Or.inl hs
      rcases hshape with ⟨c, r, hcr⟩ | ⟨c, r, hcr⟩
      · obtain ⟨h1, h2⟩ := List.cons_eq_cons.1 hcr
        exact ⟨⟨x, r, by rw [h2]⟩, ⟨y, r, by rw [h2]⟩⟩
      · obtain ⟨h1, h2⟩ := List.cons_eq_cons.1 hcr
        exact ⟨⟨x, r, by rw [h2]⟩, ⟨y, r, by rw [h2]⟩⟩

/-- Claim C3, amended, witness: in the archive `["File", "F_ile", "file",
"f_ile", "F_ile"]` the recorded top-level siblings `F_ile` and `f_ile`
collide in first-character case; they were not both recorded verbatim and
both carry the separator at position 1. -/
theorem c3_collision_amended_witness :
    ¬((([] : Path), "F_ile".data) ∈ (ledgerRunV [] []
          [⟨"File".data, some [1]⟩, ⟨"F_ile".data, some [2]⟩, ⟨"file".data, some [3]⟩,
           ⟨"f_ile".data, some [4]⟩, ⟨"F_ile".data, some [5]⟩]).2
      ∧ (([] : Path), "f_ile".data) ∈ (ledgerRunV [] []
          [⟨"File".data, some [1]⟩, ⟨"F_ile".data, some [2]⟩, ⟨"file".data, some [3]⟩,
           ⟨"f_ile".data, some [4]⟩, ⟨"F_ile".data, some [5]⟩]).2)
    ∧ (∃ c r, "F_ile".data = c :: '_' :: r) ∧ (∃ c r, "f_ile".data = c :: '_' :: r) :=
  c3_collision_amended.2
    [⟨"File".data, some [1]⟩, ⟨"F_ile".data, some [2]⟩, ⟨"file".data, some [3]⟩,
     ⟨"f_ile".data, some [4]⟩, ⟨"F_ile".data, some [5]⟩]
    [] "F_ile".data "f_ile".data (by decide) (by decide) (by decide)
